import Mathlib

/-!
Verification of the adaptive brightness daemon (wluma).

Shallow embedding of the core algorithms:
  * the per-output predictor: learned dataset, monotone pruning on learn,
    Shepard-style inverse-distance interpolation
    (src/predictor/data.rs, src/predictor/controller/adaptive.rs,
     src/predictor/controller/mod.rs),
  * the ALS debouncer state machine (src/predictor/controller/adaptive.rs),
  * the brightness controller: user-edit detection, target computation and
    stepwise transitions (src/brightness/controller.rs),
  * the actuator write clamping (src/brightness/backlight.rs,
    src/brightness/ddcutil.rs),
  * ALS profile lookup (src/als/mod.rs),
  * perceived lightness of a frame (src/frame/mod.rs).

Machine integers u8 and u64 are modelled as Nat; the only u64 arithmetic
with saturation, saturating_add_signed, is modelled explicitly against
U64_MAX.  The f64 arithmetic of the interpolation and of the perceived
lightness formula is modelled as exact arithmetic over the rationals
(respectively the reals, for the square root); all inputs are small
integers, so the idealisation only removes rounding noise.
-/

/-! ## Predictor data model (src/predictor/data.rs, adaptive.rs) -/

/-- One learned data point.  In the controller sources the lux bucket is an
opaque string label compared only for equality; luma is u8 and brightness
u64, both modelled as Nat since the predictor only compares them. -/
structure Entry where
  lux : String
  luma : Nat
  brightness : Nat
deriving DecidableEq, Repr

/-- The retain predicate of Controller::learn in
src/predictor/controller/adaptive.rs lines 147 to 159: an existing entry is
kept when its environment differs, or when it is darker on screen with a
brightness at least the pending one, or brighter on screen with a
brightness at most the pending one. -/
def keepEntry (pending entry : Entry) : Bool :=
  (entry.lux != pending.lux)
    || (entry.lux == pending.lux && decide (entry.luma < pending.luma)
          && decide (pending.brightness ≤ entry.brightness))
    || (entry.lux == pending.lux && decide (pending.luma < entry.luma)
          && decide (entry.brightness ≤ pending.brightness))

/-- The comparator of the final sort in Controller::learn:
sort_unstable_by lux, then luma.  The Rust String order is lexicographic;
it is modelled by the lexicographic order on the character lists. -/
def entryLE (x y : Entry) : Prop :=
  x.lux.data < y.lux.data ∨ (x.lux = y.lux ∧ x.luma ≤ y.luma)

instance : DecidableRel entryLE := fun x y => by
  unfold entryLE
  infer_instance

/-- Controller::learn (src/predictor/controller/adaptive.rs lines 143 to
170): retain the surviving entries, push the pending entry, sort by
(lux, luma).  The source sorts with sort_unstable_by, which leaves the
order of comparator ties unspecified; insertion sort is one
comparator-consistent realisation (and within one dataset ties cannot
arise, entries being unique per lux and luma). -/
def learn (entries : List Entry) (pending : Entry) : List Entry :=
  List.insertionSort entryLE ((entries.filter (keepEntry pending)) ++ [pending])

/-! ## Interpolation (src/predictor/controller/mod.rs lines 26 to 66) -/

/-- The filtered and mapped candidate points of interpolate: brightness and
one dimensional distance in luma, for the entries whose lux equals the
current lux. -/
def samePoints (entries : List Entry) (lux : String) (luma : Nat) : List (ℚ × ℚ) :=
  (entries.filter (fun e => e.lux == lux)).map
    (fun e => ((e.brightness : ℚ), |(luma : ℚ) - (e.luma : ℚ)|))

/-- Product of all entries of the list except the one at index i, written
with take and drop exactly as the source slices points[0..i] and
points[i+1..]. -/
def prodOthersAt (q : List ℚ) (i : Nat) : ℚ :=
  (q.take i ++ q.drop (i + 1)).prod

/-- interpolate from src/predictor/controller/mod.rs.  The denominator is
the source expression: the sum, over all combinations of n-1 of the n
distances, of the product of the combination (itertools combinations,
modelled by sublistsLen; addition over ℚ is commutative so the enumeration
order of the combinations does not matter).  The final cast as u64 of the
nonnegative f64 sum is the floor. -/
def interpolate (entries : List Entry) (lux : String) (luma : Nat) : Option Nat :=
  let points := samePoints entries lux luma
  if points.isEmpty then none
  else
    let q := points.map Prod.snd
    let distance_denominator : ℚ := ((q.sublistsLen (points.length - 1)).map List.prod).sum
    let prediction : ℚ :=
      ((points.enum).map
        (fun ip => ip.2.1 * prodOthersAt q ip.1 / distance_denominator)).sum
    some (Int.toNat ⌊prediction⌋)

/-- Spec-side form of the Shepard denominator: the sum over all i of the
product of the distances of the other points, written recursively. -/
def sumProdOthers : List ℚ → ℚ
  | [] => 0
  | d :: t => t.prod + d * sumProdOthers t

/-- Recursive form of the weighted sum: the accumulator acc carries the
product of the distances of the points already passed. -/
def wsumAux (S : ℚ) (acc : ℚ) : List (ℚ × ℚ) → ℚ
  | [] => 0
  | (b, d) :: t => b * (acc * (t.map Prod.snd).prod) / S + wsumAux S (acc * d) t

/-- The prediction formula as the spec words it: with distances d i,
products over the other distances, and S the sum of all such products, the
sum of brightness times product over S. -/
def shepardSpec (pts : List (ℚ × ℚ)) : ℚ :=
  wsumAux (sumProdOthers (pts.map Prod.snd)) 1 pts

/-! ## ALS debouncer (src/predictor/controller/adaptive.rs lines 91 to 109) -/

def NEXT_ALS_COOLDOWN_RESET : Nat := 15

/-- The debouncer state of the adaptive controller: the effective lux label
last_als, the candidate next_als and its cooldown counter. -/
structure AlsState where
  last_als : Option String
  next_als : Option String
  next_als_cooldown : Nat
deriving DecidableEq, Repr

/-- The arms of the match that do not receive a fresh differing value:
decrement the cooldown while above one, promote the candidate when the
cooldown is exactly one, otherwise do nothing. -/
def alsCooldownTick (s : AlsState) : AlsState :=
  if 1 < s.next_als_cooldown then
    { s with next_als_cooldown := s.next_als_cooldown - 1 }
  else if s.next_als_cooldown = 1 then
    { last_als := s.next_als, next_als := none, next_als_cooldown := 0 }
  else s

/-- One adjust tick of the debouncer, fed with the newest value drained
from the ALS channel (none when the channel was empty).  A received value
that differs from the current candidate replaces it and resets the
cooldown; any other input falls through to the cooldown arms. -/
def alsStep (s : AlsState) (received : Option String) : AlsState :=
  match received with
  | some new_als =>
      if s.next_als ≠ some new_als then
        { s with next_als := some new_als,
                 next_als_cooldown := NEXT_ALS_COOLDOWN_RESET }
      else alsCooldownTick s
  | none => alsCooldownTick s

/-- A run of the debouncer over a list of tick inputs. -/
def alsRun (s : AlsState) (l : List (Option String)) : AlsState :=
  l.foldl alsStep s

/-! ## Brightness controller (src/brightness/controller.rs) -/

def TRANSITION_MAX_MS : Nat := 200

def U64_MAX : Nat := 2 ^ 64 - 1

/-- u64::clamp as used by both actuators on every write
(src/brightness/backlight.rs line 134, src/brightness/ddcutil.rs line 52);
Rust clamp requires lo ≤ hi. -/
def clampU64 (v lo hi : Nat) : Nat :=
  if v < lo then lo else if hi < v then hi else v

/-- A transition goal: the desired brightness and the signed step. -/
structure Target where
  desired : Nat
  step : Int
deriving DecidableEq, Repr

/-- Target::reached (src/brightness/controller.rs lines 28 to 32). -/
def Target.reached (t : Target) (current : Nat) : Bool :=
  (decide (0 < t.step) && decide (t.desired ≤ current))
    || (decide (t.step < 0) && decide (current ≤ t.desired))

/-- u64::saturating_add_signed, the update of the current value in
Controller::transition. -/
def saturatingAddSigned (c : Nat) (s : Int) : Nat :=
  (min ((c : Int) + s) ((U64_MAX : Nat) : Int)).toNat

/-- u64::div_ceil for a positive divisor. -/
def divCeil (n d : Nat) : Nat := (n + d - 1) / d

/-- The step computation of Controller::update_target lines 97 to 101. -/
def computeStep (current desired : Nat) : Int :=
  if current < desired then ((divCeil (desired - current) TRANSITION_MAX_MS : Nat) : Int)
  else -((divCeil (current - desired) TRANSITION_MAX_MS : Nat) : Int)

/-- The state the brightness controller mutates across ticks. -/
structure CtlState where
  current : Option Nat
  target : Option Target
deriving DecidableEq, Repr

/-- The externally visible effects of one tick: the value published on the
user-edit channel, and the value written to the actuator. -/
structure CtlEffects where
  published : Option Nat
  written : Option Nat
deriving DecidableEq, Repr

/-- Controller::update_target (lines 92 to 106).  The two no-change guards
keep the existing target; the unreachable arms (current none) are modelled
as keeping the state, which the step function never exercises. -/
def update_target (tgt : Option Target) (cur : Option Nat) (desired : Nat) : Option Target :=
  match tgt, cur with
  | some t, c =>
      if t.desired = desired then some t
      else
        match c with
        | some current =>
            if desired = current then some t
            else some ⟨desired, computeStep current desired⟩
        | none => some t
  | none, some current =>
      if desired = current then none
      else some ⟨desired, computeStep current desired⟩
  | none, none => none

/-- Controller::transition (lines 108 to 128): clear a reached target,
otherwise request one saturated step from the actuator.  Brightness::set
clamps the requested value to [min_brightness, max_brightness] and returns
the clamped value, which the controller caches (controller.rs line 116), so
the cached current is the clamped value, not the requested one.  Returns
the new state and the value the actuator wrote, if any.  The unit-test
mock actuator, which echoes the requested value, is the instance
minB = 0, maxB = U64_MAX. -/
def transition (minB maxB : Nat) (s : CtlState) : CtlState × Option Nat :=
  match s.target, s.current with
  | some t, some c =>
      if t.reached c then ({ s with target := none }, none)
      else
        let nv := saturatingAddSigned c t.step
        let written := clampU64 nv minB maxB
        (⟨some written, some t⟩, some written)
  | _, _ => (s, none)

/-- Controller::step (lines 51 to 81) for a tick on which the actuator read
succeeded with newBrightness and the drained prediction channel yielded
predicted.  A read that differs from the cached value is a user edit: cache
it, publish it, clear the target, skip the rest of the tick.  Otherwise
update the target from the prediction and continue a transition when one is
active. -/
def controllerStep (minB maxB : Nat) (s : CtlState) (newBrightness : Nat)
    (predicted : Option Nat) : CtlState × CtlEffects :=
  if some newBrightness ≠ s.current then
    (⟨some newBrightness, none⟩, ⟨some newBrightness, none⟩)
  else
    let s1 : CtlState :=
      match predicted with
      | some desired => { s with target := update_target s.target s.current desired }
      | none => s
    match s1.target with
    | some _ =>
        let r := transition minB maxB s1
        (r.1, ⟨none, r.2⟩)
    | none => (s1, ⟨none, none⟩)

/-- The transition phase in isolation: ticks on which the actuator read
equals the cache and no new prediction arrives, iterated until the target
is reached and cleared.  Each tick caches the clamped value Brightness::set
returns, as Controller::transition does.  Returns the final current value
and whether the target was cleared within the given number of ticks. -/
def transitionLoop (minB maxB : Nat) : Nat → Target → Nat → Nat × Bool
  | 0, _, c => (c, false)
  | fuel + 1, t, c =>
      if t.reached c then (c, true)
      else transitionLoop minB maxB fuel t (clampU64 (saturatingAddSigned c t.step) minB maxB)

/-! ## Actuator writes (src/brightness/backlight.rs lines 133 to 156,
src/brightness/ddcutil.rs lines 48 to 58) -/

/-- The value Backlight::set caches and returns: the requested value
clamped to the configured range (backlight.rs lines 134 and 147; the
casts below happen only at the device boundary, after this value is
fixed). -/
def backlightSetReturn (minB maxB v : Nat) : Nat := clampU64 v minB maxB

/-- The value the privileged dbus path of Backlight::set sends to
SetBrightness: the clamped value cast as u32, wrapping modulo 2^32
(backlight.rs line 140). -/
def backlightDbusWritten (minB maxB v : Nat) : Nat := (clampU64 v minB maxB) % 2 ^ 32

/-- The value of a u64 cast as f64 in Rust: round to nearest, ties to
even, on the 53 bit mantissa (u64 values never overflow f64, so no
infinity case arises).  Exact below 2^53. -/
def f64RoundNat (n : Nat) : Nat :=
  if n < 2 ^ 53 then n
  else
    let ulp := 2 ^ (Nat.log2 n - 52)
    let q := n / ulp
    let r := n % ulp
    if 2 * r < ulp then q * ulp
    else if ulp < 2 * r then (q + 1) * ulp
    else if q % 2 = 0 then q * ulp else (q + 1) * ulp

/-- The number the direct sysfs path of Backlight::set writes to the
brightness file: the clamped value cast as f64 and formatted
(backlight.rs line 137, device_file.rs line 16). -/
def backlightDirectWritten (minB maxB v : Nat) : Nat :=
  f64RoundNat (clampU64 v minB maxB)

/-- The value DdcUtil::set writes: clamped, then cast as u16 for the VCP
call (ddcutil.rs lines 52 to 56). -/
def ddcSetValue (minB maxB v : Nat) : Nat := (clampU64 v minB maxB) % 2 ^ 16

/-! ## ALS profile lookup (src/als/mod.rs lines 16 to 24) -/

/-- find_profile: sort the thresholds by lux, walk them from the greatest
down, take the first whose lux is at most the raw value, falling back to
the last of that walk (the smallest threshold).  The panicking
unwrap_or_else on an empty map is modelled by none. -/
def find_profile (raw : Nat) (thresholds : List (Nat × String)) : Option String :=
  match (List.insertionSort (fun a b => a.1 ≤ b.1) thresholds).reverse.find?
      (fun p => decide (p.1 ≤ raw)) with
  | some p => some p.2
  | none =>
      ((List.insertionSort (fun a b => a.1 ≤ b.1) thresholds).reverse.getLast?).map Prod.snd

/-! ## Perceived lightness (src/frame/mod.rs lines 7 to 33) -/

/-- The chunking of the first channels times pixels bytes into (r, g, b)
triples: each chunk yields its first three bytes through unwrap (none
models the panic on a short chunk) and skips the remaining channel bytes. -/
def chunkRGB : List Nat → Nat → Option (List (Nat × Nat × Nat))
  | [], _ => some []
  | r :: g :: b :: rest, channels =>
      (chunkRGB (rest.drop (channels - 3)) channels).map (fun l => (r, g, b) :: l)
  | [_], _ => none
  | [_, _], _ => none
termination_by l _ => l.length
decreasing_by
  simp only [List.length_cons]
  have h := List.length_drop (channels - 3) rest
  omega

/-- The channel sums of compute_perceived_lightness_percent: the reduce of
the chunk triples.  none models the two panics of the source: the
unwrapped reduce over zero chunks, and a short final chunk. -/
def channelSums (rgbas : List Nat) (has_alpha : Bool) (pixels : Nat) :
    Option (Nat × Nat × Nat) :=
  let channels := if has_alpha then 4 else 3
  match chunkRGB (rgbas.take (channels * pixels)) channels with
  | none => none
  | some [] => none
  | some (c :: cs) =>
      some (cs.foldl (fun a x => (a.1 + x.1, a.2.1 + x.2.1, a.2.2 + x.2.2)) c)

/-- compute_perceived_lightness_percent: mean each channel, weighted square
sum, square root, scaled to a percentage, rounded (half away from zero on a
nonnegative value is floor of the value plus one half) and cast as u8
(saturating at 255). -/
noncomputable def perceivedLightnessPercent (rgbas : List Nat) (has_alpha : Bool)
    (pixels : Nat) : Option Nat :=
  (channelSums rgbas has_alpha pixels).map (fun s =>
    let r : ℝ := (s.1 : ℝ) / (pixels : ℝ)
    let g : ℝ := (s.2.1 : ℝ) / (pixels : ℝ)
    let b : ℝ := (s.2.2 : ℝ) / (pixels : ℝ)
    let result : ℝ := Real.sqrt (0.241 * r * r + 0.691 * g * g + 0.068 * b * b) / 255 * 100
    min 255 (Int.toNat ⌊result + 1 / 2⌋))

/-! ## Helper lemmas: learn -/

theorem learn_perm (ds : List Entry) (p : Entry) :
    (learn ds p).Perm (ds.filter (keepEntry p) ++ [p]) :=
  List.perm_insertionSort entryLE _

theorem keepEntry_iff (p e : Entry) :
    keepEntry p e = true ↔
      (e.lux ≠ p.lux ∨ (e.luma < p.luma ∧ p.brightness ≤ e.brightness)
        ∨ (p.luma < e.luma ∧ e.brightness ≤ p.brightness)) := by
  simp only [keepEntry, Bool.or_eq_true, Bool.and_eq_true, decide_eq_true_eq,
    bne_iff_ne, beq_iff_eq]
  tauto

/-! ## Claims on learn -/

/-- Claim C1, counterexample: learning ("dim",30,50) into
[("dim",20,80), ("dim",30,70), ("dim",40,60)] keeps ("dim",20,80), the
entry the claim says is deleted (same lux, strictly smaller luma, stored
brightness 80 at least 50), and the result differs from the final dataset
the claim states. -/
theorem c1_counterexample_rule_inverted :
    (⟨"dim", 20, 80⟩ : Entry)
        ∈ learn [⟨"dim", 20, 80⟩, ⟨"dim", 30, 70⟩, ⟨"dim", 40, 60⟩] ⟨"dim", 30, 50⟩
    ∧ learn [⟨"dim", 20, 80⟩, ⟨"dim", 30, 70⟩, ⟨"dim", 40, 60⟩] ⟨"dim", 30, 50⟩
        ≠ [⟨"dim", 30, 50⟩, ⟨"dim", 40, 60⟩] := by decide

/-- Claim C1 amended: learn inserts the pending entry and, for its lux
only, deletes exactly the existing entries that violate same-lux
monotonicity with respect to the new point: same lux with strictly smaller
luma is deleted when its stored brightness is strictly below the pending
brightness, same lux with strictly larger luma is deleted when its stored
brightness is strictly above the pending brightness, and a same lux, same
luma entry is always replaced; learning ("dim",30,50) into
[("dim",20,80), ("dim",30,70), ("dim",40,60)] leaves exactly
[("dim",20,80), ("dim",30,50)]. -/
theorem c1_learn_keeps_monotone_entries :
    (∀ (ds : List Entry) (p : Entry),
      p ∈ learn ds p ∧
      ∀ e ∈ ds, e ≠ p →
        (e ∈ learn ds p ↔
          (e.lux ≠ p.lux ∨ (e.luma < p.luma ∧ p.brightness ≤ e.brightness)
            ∨ (p.luma < e.luma ∧ e.brightness ≤ p.brightness))))
    ∧ learn [⟨"dim", 20, 80⟩, ⟨"dim", 30, 70⟩, ⟨"dim", 40, 60⟩] ⟨"dim", 30, 50⟩
        = [⟨"dim", 20, 80⟩, ⟨"dim", 30, 50⟩] := by
  constructor
  · intro ds p
    have hperm := learn_perm ds p
    constructor
    · exact hperm.mem_iff.mpr (by simp)
    · intro e he hne
      rw [hperm.mem_iff]
      simp only [List.mem_append, List.mem_filter, List.mem_singleton]
      constructor
      · rintro (⟨-, hk⟩ | h)
        · exact (keepEntry_iff p e).mp hk
        · exact absurd h hne
      · intro h
        exact Or.inl ⟨he, (keepEntry_iff p e).mpr h⟩
  · decide

theorem c1_witness :
    (⟨"dim", 40, 60⟩ : Entry)
      ∉ learn [⟨"dim", 20, 80⟩, ⟨"dim", 30, 70⟩, ⟨"dim", 40, 60⟩] ⟨"dim", 30, 50⟩ := by
  have h := (c1_learn_keeps_monotone_entries.1
      [⟨"dim", 20, 80⟩, ⟨"dim", 30, 70⟩, ⟨"dim", 40, 60⟩] ⟨"dim", 30, 50⟩).2
      ⟨"dim", 40, 60⟩ (by decide) (by decide)
  intro hmem
  exact absurd (h.mp hmem) (by decide)

/-- Claim C2: after learn promotes a pending entry, every remaining entry
with the same lux respects monotonicity around the new point, and every
entry with a different lux is preserved with its multiplicity. -/
theorem c2_learn_invariant :
    ∀ (ds : List Entry) (p : Entry),
      (∀ e ∈ learn ds p, e.lux = p.lux →
        (e.luma < p.luma → p.brightness ≤ e.brightness)
        ∧ (p.luma < e.luma → e.brightness ≤ p.brightness))
      ∧ (∀ e : Entry, e.lux ≠ p.lux → (learn ds p).count e = ds.count e) := by
  intro ds p
  have hperm := learn_perm ds p
  constructor
  · intro e he hlux
    rcases List.mem_append.mp (hperm.mem_iff.mp he) with h | h
    · have hk := (keepEntry_iff p e).mp (List.mem_filter.mp h).2
      rcases hk with h1 | h2 | h3
      · exact absurd hlux h1
      · exact ⟨fun _ => h2.2, fun hgt => absurd hgt (by omega)⟩
      · exact ⟨fun hlt => absurd hlt (by omega), fun _ => h3.2⟩
    · have : e = p := List.mem_singleton.mp h
      subst this
      exact ⟨fun hlt => absurd hlt (by omega), fun hgt => absurd hgt (by omega)⟩
  · intro e hlux
    rw [hperm.count_eq, List.count_append]
    have h1 : List.count e [p] = 0 := by
      rw [List.count_eq_zero]
      intro hc
      exact hlux (by rw [List.mem_singleton.mp hc])
    have h2 : List.count e (ds.filter (keepEntry p)) = ds.count e :=
      List.count_filter ((keepEntry_iff p e).mpr (Or.inl hlux))
    rw [h1, h2]
    omega

theorem c2_witness :
    (learn [⟨"bright", 10, 20⟩] ⟨"dim", 30, 50⟩).count ⟨"bright", 10, 20⟩
      = [(⟨"bright", 10, 20⟩ : Entry)].count ⟨"bright", 10, 20⟩ :=
  (c2_learn_invariant [⟨"bright", 10, 20⟩] ⟨"dim", 30, 50⟩).2 ⟨"bright", 10, 20⟩ (by decide)

/-! ## Claims on the brightness controller tick -/

/-- Claim C5: on a tick where the value read from the actuator differs
from the cached value, the controller caches the new value, publishes it
on the user-edit channel, clears any active target, and neither updates
the target from a prediction nor writes to the actuator. -/
theorem c5_user_edit_clears_target :
    ∀ (minB maxB : Nat) (s : CtlState) (newBrightness : Nat) (predicted : Option Nat),
      some newBrightness ≠ s.current →
      controllerStep minB maxB s newBrightness predicted
        = (⟨some newBrightness, none⟩, ⟨some newBrightness, none⟩) := by
  intro minB maxB s nb p h
  simp [controllerStep, h]

theorem c5_witness :
    controllerStep 1 500 ⟨some 100, some ⟨120, 1⟩⟩ 300 (some 120)
      = (⟨some 300, none⟩, ⟨some 300, none⟩) :=
  c5_user_edit_clears_target 1 500 ⟨some 100, some ⟨120, 1⟩⟩ 300 (some 120) (by decide)

/-! ## Claims on actuator writes -/

/-- Claim C8, counterexample: with min_brightness 1 and max_brightness
2^32 (a legitimate u64 limit parsed from the sysfs max_brightness file),
requesting 2^32 on the backlight dbus path clamps to 2^32 but then sends
it cast as u32, so the value actually written to the device is 0, below
min_brightness and outside the configured range. -/
theorem c8_counterexample_dbus_wrap :
    backlightDbusWritten 1 (2 ^ 32) (2 ^ 32) = 0
    ∧ ¬ (1 ≤ backlightDbusWritten 1 (2 ^ 32) (2 ^ 32)) := by decide

/-- Claim C8 amended: both actuators clamp the requested value into
[min_brightness, max_brightness] before writing, and the clamped value,
which both set methods return and cache, always lies in that range; the
value actually crossing the device boundary equals the clamped value, and
hence also lies in the range, whenever max_brightness fits the boundary
type: at most 65535 for the DDC u16 VCP write (guaranteed there, since
max_brightness is discovered from a u16 feature maximum), below 2^32 for
the backlight privileged dbus u32 call, and below 2^53 (the exact f64
range) for the direct sysfs write; nothing in the backlight sources bounds
its max_brightness, so its two boundary conditions are genuine
hypotheses. -/
theorem c8_actuator_writes_clamped :
    ∀ (minB maxB v : Nat), minB ≤ maxB →
      (minB ≤ backlightSetReturn minB maxB v ∧ backlightSetReturn minB maxB v ≤ maxB)
      ∧ (maxB ≤ 65535 → minB ≤ ddcSetValue minB maxB v ∧ ddcSetValue minB maxB v ≤ maxB)
      ∧ (maxB < 2 ^ 32 →
          minB ≤ backlightDbusWritten minB maxB v
            ∧ backlightDbusWritten minB maxB v ≤ maxB)
      ∧ (maxB < 2 ^ 53 →
          minB ≤ backlightDirectWritten minB maxB v
            ∧ backlightDirectWritten minB maxB v ≤ maxB) := by
  intro minB maxB v h
  have hcl : minB ≤ clampU64 v minB maxB ∧ clampU64 v minB maxB ≤ maxB := by
    unfold clampU64
    split
    · omega
    · split <;> omega
  refine ⟨hcl, fun h16 => ?_, fun h32 => ?_, fun h53 => ?_⟩
  · have hm : clampU64 v minB maxB % 2 ^ 16 = clampU64 v minB maxB :=
      Nat.mod_eq_of_lt (by omega)
    unfold ddcSetValue
    rw [hm]
    exact hcl
  · have hm : clampU64 v minB maxB % 2 ^ 32 = clampU64 v minB maxB :=
      Nat.mod_eq_of_lt (by omega)
    unfold backlightDbusWritten
    rw [hm]
    exact hcl
  · have hm : f64RoundNat (clampU64 v minB maxB) = clampU64 v minB maxB := by
      unfold f64RoundNat
      rw [if_pos (by omega)]
    unfold backlightDirectWritten
    rw [hm]
    exact hcl

theorem c8_witness :
    5 ≤ backlightSetReturn 5 100 1000
    ∧ backlightDbusWritten 5 100 1000 ≤ 100
    ∧ backlightDirectWritten 5 100 1000 ≤ 100
    ∧ ddcSetValue 5 100 3 = 5 := by
  have h := c8_actuator_writes_clamped 5 100 1000 (by decide)
  exact ⟨h.1.1, (h.2.2.1 (by decide)).2, (h.2.2.2 (by decide)).2, by decide⟩

/-! ## Claims on ALS profile lookup -/

/-- Claim C9, counterexample: bucketising raw value 10 against an empty
thresholds map yields no profile at all (the source panics on the final
unwrap), rather than succeeding with a fallback bucket. -/
theorem c9_counterexample_empty_thresholds :
    find_profile 10 [] = none := by decide

/-- Claim C9 amended: bucketising a raw ambient-light value against an
empty thresholds map does not succeed: for every raw value find_profile
yields no profile at all (the source panics on the final unwrap). -/
theorem c9_empty_thresholds_fails :
    ∀ raw : Nat, find_profile raw [] = none :=
  fun _ => rfl

/-! ## Helper lemmas: brightness transition -/

theorem reached_iff (t : Target) (c : Nat) :
    t.reached c = true ↔ ((0 < t.step ∧ t.desired ≤ c) ∨ (t.step < 0 ∧ c ≤ t.desired)) := by
  simp [Target.reached]

theorem saturatingAddSigned_int (c : Nat) (s : Int) :
    (saturatingAddSigned c s : Int) = max (min ((c : Int) + s) ((U64_MAX : Nat) : Int)) 0 := by
  unfold saturatingAddSigned
  exact Int.toNat_eq_max _

theorem clampU64_eq_max_min (v lo hi : Nat) (h : lo ≤ hi) :
    clampU64 v lo hi = max lo (min v hi) := by
  unfold clampU64
  split
  · omega
  · split <;> omega

theorem transitionLoop_pos (minB maxB : Nat) (t : Target) :
    ∀ (fuel c : Nat), 0 < t.step → minB ≤ c → c < t.desired → t.desired ≤ maxB →
      maxB ≤ U64_MAX → t.desired - c < fuel →
      (transitionLoop minB maxB fuel t c).2 = true
      ∧ t.desired ≤ (transitionLoop minB maxB fuel t c).1
      ∧ ((transitionLoop minB maxB fuel t c).1 : Int) ≤ (t.desired : Int) + t.step - 1
      ∧ (transitionLoop minB maxB fuel t c).1 ≤ maxB := by
  intro fuel
  induction fuel with
  | zero => intro c h1 h2 h3 h4 h5 h6; omega
  | succ n ih =>
      intro c h1 h2 h3 h4 h5 h6
      cases hb : t.reached c with
      | true => exact absurd ((reached_iff t c).mp hb) (by omega)
      | false =>
          have hstep : transitionLoop minB maxB (n + 1) t c
              = transitionLoop minB maxB n t
                  (clampU64 (saturatingAddSigned c t.step) minB maxB) := by
            simp [transitionLoop, hb]
          rw [hstep]
          have hsa : (saturatingAddSigned c t.step : Int)
              = max (min ((c : Int) + t.step) ((U64_MAX : Nat) : Int)) 0 :=
            saturatingAddSigned_int c t.step
          have hclv : clampU64 (saturatingAddSigned c t.step) minB maxB
              = max minB (min (saturatingAddSigned c t.step) maxB) :=
            clampU64_eq_max_min _ _ _ (by omega)
          by_cases hlt : clampU64 (saturatingAddSigned c t.step) minB maxB < t.desired
          · exact ih _ h1 (by omega) hlt h4 h5 (by omega)
          · push_neg at hlt
            obtain ⟨m, rfl⟩ : ∃ m, n = m + 1 := ⟨n - 1, by omega⟩
            have hr : t.reached (clampU64 (saturatingAddSigned c t.step) minB maxB)
                = true := (reached_iff t _).mpr (Or.inl ⟨h1, hlt⟩)
            have hdone : transitionLoop minB maxB (m + 1) t
                (clampU64 (saturatingAddSigned c t.step) minB maxB)
                = (clampU64 (saturatingAddSigned c t.step) minB maxB, true) := by
              simp [transitionLoop, hr]
            rw [hdone]
            exact ⟨rfl, hlt, by omega, by omega⟩

theorem transitionLoop_neg (minB maxB : Nat) (t : Target) :
    ∀ (fuel c : Nat), t.step < 0 → minB ≤ t.desired → t.desired < c → c ≤ maxB →
      maxB ≤ U64_MAX → c - t.desired < fuel →
      (transitionLoop minB maxB fuel t c).2 = true
      ∧ (transitionLoop minB maxB fuel t c).1 ≤ t.desired
      ∧ (t.desired : Int) + t.step + 1 ≤ ((transitionLoop minB maxB fuel t c).1 : Int)
      ∧ minB ≤ (transitionLoop minB maxB fuel t c).1 := by
  intro fuel
  induction fuel with
  | zero => intro c h1 h2 h3 h4 h5 h6; omega
  | succ n ih =>
      intro c h1 h2 h3 h4 h5 h6
      cases hb : t.reached c with
      | true => exact absurd ((reached_iff t c).mp hb) (by omega)
      | false =>
          have hstep : transitionLoop minB maxB (n + 1) t c
              = transitionLoop minB maxB n t
                  (clampU64 (saturatingAddSigned c t.step) minB maxB) := by
            simp [transitionLoop, hb]
          rw [hstep]
          have hsa : (saturatingAddSigned c t.step : Int)
              = max (min ((c : Int) + t.step) ((U64_MAX : Nat) : Int)) 0 :=
            saturatingAddSigned_int c t.step
          have hclv : clampU64 (saturatingAddSigned c t.step) minB maxB
              = max minB (min (saturatingAddSigned c t.step) maxB) :=
            clampU64_eq_max_min _ _ _ (by omega)
          by_cases hgt : t.desired < clampU64 (saturatingAddSigned c t.step) minB maxB
          · exact ih _ h1 h2 hgt (by omega) h5 (by omega)
          · push_neg at hgt
            obtain ⟨m, rfl⟩ : ∃ m, n = m + 1 := ⟨n - 1, by omega⟩
            have hr : t.reached (clampU64 (saturatingAddSigned c t.step) minB maxB)
                = true := (reached_iff t _).mpr (Or.inr ⟨h1, hgt⟩)
            have hdone : transitionLoop minB maxB (m + 1) t
                (clampU64 (saturatingAddSigned c t.step) minB maxB)
                = (clampU64 (saturatingAddSigned c t.step) minB maxB, true) := by
              simp [transitionLoop, hr]
            rw [hdone]
            exact ⟨rfl, hgt, by omega, by omega⟩

/-! ## Claims on the transition -/

/-- Claim C3, counterexample: from current 10000 toward desired 10413 the
step is indeed ceil(413/200) = 3, but the transition ends by writing 10414,
not 10413: each tick adds the full step and Target::reached only checks an
inequality, so the final written value overshoots whenever the step does
not divide the distance. -/
theorem c3_counterexample_overshoot :
    computeStep 10000 10413 = 3
    ∧ transitionLoop 0 20000 200 ⟨10413, 3⟩ 10000 = (10414, true)
    ∧ (10414 : Nat) ≠ 10413 := by decide

/-- Claim C3 amended: a transition toward a desired value within the
actuator range, driven by a step of matching sign, terminates with the
target cleared, with every cached value being the clamped value the
actuator returned, and the final value misses desired by strictly less
than the step magnitude without ever stopping short: a rising transition
ends at a value in [desired, desired + step - 1] that stays at most
max_brightness, and a falling transition ends at a value in
[desired + step + 1, desired] that stays at least min_brightness; in
particular from current 10000 with desired 10413 the step is
ceil(413/200) = 3 and the transition ends at 10414, not 10413, after
which the Target is cleared. -/
theorem c3_transition_reaches_desired_within_step :
    (∀ (minB maxB : Nat) (t : Target) (fuel c : Nat),
      0 < t.step → minB ≤ c → c < t.desired → t.desired ≤ maxB → maxB ≤ U64_MAX →
      t.desired - c < fuel →
      (transitionLoop minB maxB fuel t c).2 = true
      ∧ t.desired ≤ (transitionLoop minB maxB fuel t c).1
      ∧ ((transitionLoop minB maxB fuel t c).1 : Int) ≤ (t.desired : Int) + t.step - 1
      ∧ (transitionLoop minB maxB fuel t c).1 ≤ maxB)
    ∧ (∀ (minB maxB : Nat) (t : Target) (fuel c : Nat),
      t.step < 0 → minB ≤ t.desired → t.desired < c → c ≤ maxB → maxB ≤ U64_MAX →
      c - t.desired < fuel →
      (transitionLoop minB maxB fuel t c).2 = true
      ∧ (transitionLoop minB maxB fuel t c).1 ≤ t.desired
      ∧ (t.desired : Int) + t.step + 1 ≤ ((transitionLoop minB maxB fuel t c).1 : Int)
      ∧ minB ≤ (transitionLoop minB maxB fuel t c).1)
    ∧ computeStep 10000 10413 = 3
    ∧ transitionLoop 0 20000 200 ⟨10413, 3⟩ 10000 = (10414, true) :=
  ⟨fun minB maxB t fuel c => transitionLoop_pos minB maxB t fuel c,
   fun minB maxB t fuel c => transitionLoop_neg minB maxB t fuel c,
   by decide, by decide⟩

theorem c3_witness :
    ((transitionLoop 0 20000 500 ⟨10413, 3⟩ 10000).2 = true
      ∧ 10413 ≤ (transitionLoop 0 20000 500 ⟨10413, 3⟩ 10000).1)
    ∧ ((transitionLoop 0 20000 600 ⟨9473, -3⟩ 10000).2 = true
      ∧ (transitionLoop 0 20000 600 ⟨9473, -3⟩ 10000).1 ≤ 9473) := by
  have hp := c3_transition_reaches_desired_within_step.1 0 20000 ⟨10413, 3⟩ 500 10000
    (by decide) (by decide) (by decide) (by decide) (by decide) (by decide)
  have hn := c3_transition_reaches_desired_within_step.2.1 0 20000 ⟨9473, -3⟩ 600 10000
    (by decide) (by decide) (by decide) (by decide) (by decide) (by decide)
  exact ⟨⟨hp.1, hp.2.1⟩, ⟨hn.1, hn.2.1⟩⟩

/-! ## Helper lemmas: ALS debouncer -/

theorem alsRun_append (s : AlsState) (l1 l2 : List (Option String)) :
    alsRun s (l1 ++ l2) = alsRun (alsRun s l1) l2 :=
  List.foldl_append _ _ _ _

theorem alsCooldownTick_mk (L N : Option String) (c : Nat) :
    alsCooldownTick ⟨L, N, c⟩ =
      if 1 < c then ⟨L, N, c - 1⟩ else if c = 1 then ⟨N, none, 0⟩ else ⟨L, N, c⟩ :=
  rfl

theorem alsStep_mk_some (L N : Option String) (c : Nat) (w : String) :
    alsStep ⟨L, N, c⟩ (some w) =
      if N ≠ some w then ⟨L, some w, NEXT_ALS_COOLDOWN_RESET⟩
      else alsCooldownTick ⟨L, N, c⟩ :=
  rfl

theorem alsRun_stable (v : String) :
    ∀ (l : List (Option String)) (L : Option String) (c : Nat),
      (∀ x ∈ l, x = none ∨ x = some v) → l.length < c →
      alsRun ⟨L, some v, c⟩ l = ⟨L, some v, c - l.length⟩ := by
  intro l
  induction l with
  | nil => intro L c _ _; rfl
  | cons x t ih =>
      intro L c hst hlen
      have hc2 : 1 < c := by
        simp only [List.length_cons] at hlen
        omega
      have hcool : alsCooldownTick ⟨L, some v, c⟩ = ⟨L, some v, c - 1⟩ := by
        rw [alsCooldownTick_mk, if_pos hc2]
      have hstep : alsStep ⟨L, some v, c⟩ x = ⟨L, some v, c - 1⟩ := by
        rcases hst x (by simp) with rfl | rfl
        · exact hcool
        · rw [alsStep_mk_some, if_neg (by simp)]
          exact hcool
      have hrun : alsRun ⟨L, some v, c⟩ (x :: t) = alsRun ⟨L, some v, c - 1⟩ t := by
        rw [show alsRun ⟨L, some v, c⟩ (x :: t) = alsRun (alsStep ⟨L, some v, c⟩ x) t from rfl,
          hstep]
      rw [hrun, ih L (c - 1) (fun y hy => hst y (List.mem_cons_of_mem _ hy))
        (by simp only [List.length_cons] at hlen; omega)]
      simp only [List.length_cons]
      congr 1
      omega

theorem alsStep_avoid (s : AlsState) (x : Option String) (v : String)
    (h1 : s.last_als ≠ some v) (h2 : s.next_als ≠ some v) (hx : x ≠ some v) :
    (alsStep s x).last_als ≠ some v ∧ (alsStep s x).next_als ≠ some v := by
  have hcool : (alsCooldownTick s).last_als ≠ some v
      ∧ (alsCooldownTick s).next_als ≠ some v := by
    unfold alsCooldownTick
    split
    · exact ⟨h1, h2⟩
    · split
      · exact ⟨h2, by simp⟩
      · exact ⟨h1, h2⟩
  cases x with
  | none => exact hcool
  | some w =>
      by_cases hw : s.next_als ≠ some w
      · simp only [alsStep]
        rw [if_pos hw]
        exact ⟨h1, hx⟩
      · simp only [alsStep]
        rw [if_neg hw]
        exact hcool

theorem alsRun_avoid (v : String) :
    ∀ (l : List (Option String)) (s : AlsState),
      s.last_als ≠ some v → s.next_als ≠ some v → (∀ x ∈ l, x ≠ some v) →
      (alsRun s l).last_als ≠ some v ∧ (alsRun s l).next_als ≠ some v := by
  intro l
  induction l with
  | nil => intro s h1 h2 _; exact ⟨h1, h2⟩
  | cons x t ih =>
      intro s h1 h2 hl
      have hs := alsStep_avoid s x v h1 h2 (hl x (by simp))
      exact ih (alsStep s x) hs.1 hs.2 (fun y hy => hl y (List.mem_cons_of_mem _ hy))

/-! ## Claim on the lux debouncer -/

/-- Claim C7: a newly received lux value v becomes the effective label
last_als only after remaining stable for NEXT_ALS_COOLDOWN_RESET
consecutive ticks: during the arrival tick and the following fourteen
stable ticks it is never effective; on the fifteenth stable tick after the
arrival it becomes effective; and when a different value arrives before the
cooldown elapses, v never becomes effective (unless it is received
again). -/
theorem c7_lux_debounce :
    ∀ (s : AlsState) (v : String) (l2 : List (Option String)),
      s.last_als ≠ some v → s.next_als ≠ some v →
      (∀ x ∈ l2, x = none ∨ x = some v) → l2.length ≤ 14 →
      (∀ n : Nat, (alsRun (alsStep s (some v)) (l2.take n)).last_als ≠ some v)
      ∧ (∀ (w : String) (l3 : List (Option String)), w ≠ v → (∀ x ∈ l3, x ≠ some v) →
          ∀ n : Nat,
            (alsRun (alsStep s (some v)) ((l2 ++ some w :: l3).take n)).last_als ≠ some v)
      ∧ (l2.length = 14 → ∀ x, (x = none ∨ x = some v) →
          (alsStep (alsRun (alsStep s (some v)) l2) x).last_als = some v) := by
  intro s v l2 h1 h2 hst hlen
  have hs1 : alsStep s (some v) = ⟨s.last_als, some v, NEXT_ALS_COOLDOWN_RESET⟩ := by
    simp only [alsStep]
    rw [if_pos h2]
  refine ⟨?_, ?_, ?_⟩
  · intro n
    rw [hs1, alsRun_stable v (l2.take n) s.last_als NEXT_ALS_COOLDOWN_RESET
      (fun x hx => hst x (List.take_subset n l2 hx))
      (by have := List.length_take_le n l2; unfold NEXT_ALS_COOLDOWN_RESET
          have := List.length_take n l2; omega)]
    exact h1
  · intro w l3 hw hl3 n
    by_cases hn : n ≤ l2.length
    · have hpre : (l2 ++ some w :: l3).take n = l2.take n := by
        rw [List.take_append_eq_append_take]
        have h0 : n - l2.length = 0 := by omega
        rw [h0]
        simp
      rw [hpre, hs1, alsRun_stable v (l2.take n) s.last_als NEXT_ALS_COOLDOWN_RESET
        (fun x hx => hst x (List.take_subset n l2 hx))
        (by have := List.length_take n l2; unfold NEXT_ALS_COOLDOWN_RESET; omega)]
      exact h1
    · push_neg at hn
      have hsplit : (l2 ++ some w :: l3).take n
          = l2 ++ some w :: l3.take (n - l2.length - 1) := by
        obtain ⟨m, hm⟩ : ∃ m, n - l2.length = m + 1 := ⟨n - l2.length - 1, by omega⟩
        rw [List.take_append_eq_append_take, List.take_of_length_le (by omega), hm]
        simp
      rw [hsplit, alsRun_append, hs1,
        alsRun_stable v l2 s.last_als NEXT_ALS_COOLDOWN_RESET hst
          (by unfold NEXT_ALS_COOLDOWN_RESET; omega)]
      have hstepw :
          alsStep ⟨s.last_als, some v, NEXT_ALS_COOLDOWN_RESET - l2.length⟩ (some w)
            = ⟨s.last_als, some w, NEXT_ALS_COOLDOWN_RESET⟩ := by
        rw [alsStep_mk_some, if_pos]
        simp only [ne_eq, Option.some.injEq]
        exact fun hvw => hw hvw.symm
      rw [show alsRun ⟨s.last_als, some v, NEXT_ALS_COOLDOWN_RESET - l2.length⟩
            (some w :: l3.take (n - l2.length - 1))
          = alsRun (alsStep ⟨s.last_als, some v, NEXT_ALS_COOLDOWN_RESET - l2.length⟩ (some w))
            (l3.take (n - l2.length - 1)) from rfl, hstepw]
      exact (alsRun_avoid v (l3.take (n - l2.length - 1))
        ⟨s.last_als, some w, NEXT_ALS_COOLDOWN_RESET⟩ h1
        (by simp only [ne_eq, Option.some.injEq]; exact fun hwv => hw hwv)
        (fun y hy => hl3 y (List.take_subset _ l3 hy))).1
  · intro h14 x hx
    rw [hs1, alsRun_stable v l2 s.last_als NEXT_ALS_COOLDOWN_RESET hst
      (by unfold NEXT_ALS_COOLDOWN_RESET; omega)]
    have hc1 : NEXT_ALS_COOLDOWN_RESET - l2.length = 1 := by
      rw [h14]
      rfl
    have hcool : alsCooldownTick ⟨s.last_als, some v, 1⟩ = ⟨some v, none, 0⟩ := by
      rw [alsCooldownTick_mk, if_neg (by omega), if_pos rfl]
    rw [hc1]
    rcases hx with rfl | rfl
    · rw [show alsStep ⟨s.last_als, some v, 1⟩ none
          = alsCooldownTick ⟨s.last_als, some v, 1⟩ from rfl, hcool]
    · rw [alsStep_mk_some, if_neg (by simp), hcool]

theorem c7_witness :
    (alsRun (alsStep ⟨some "bright", none, 0⟩ (some "dim"))
      ((([some "dim"] : List (Option String)) ++ some "bright" :: [some "bright"]).take 3)
      ).last_als ≠ some "dim" := by
  have h := c7_lux_debounce ⟨some "bright", none, 0⟩ "dim" [some "dim"]
    (by decide) (by decide) (by decide) (by decide)
  exact h.2.1 "bright" [some "bright"] (by decide) (by decide) 3

/-! ## Helper lemmas: interpolation -/

theorem prodOthersAt_append_len (pre : List ℚ) (d : ℚ) (rest : List ℚ) :
    prodOthersAt (pre ++ d :: rest) pre.length = pre.prod * rest.prod := by
  induction pre with
  | nil => simp [prodOthersAt]
  | cons a pre ih =>
      simp only [prodOthersAt, List.cons_append, List.length_cons, List.take_succ_cons,
        List.drop_succ_cons, List.prod_cons] at ih ⊢
      rw [ih]
      ring

theorem wsum_enumFrom (S : ℚ) :
    ∀ (pts : List (ℚ × ℚ)) (pre : List ℚ),
      ((List.enumFrom pre.length pts).map
        (fun ip => ip.2.1 * prodOthersAt (pre ++ pts.map Prod.snd) ip.1 / S)).sum
      = wsumAux S pre.prod pts := by
  intro pts
  induction pts with
  | nil => intro pre; rfl
  | cons p t ih =>
      intro pre
      obtain ⟨b, d⟩ := p
      have hih := ih (pre ++ [d])
      simp only [List.length_append, List.length_singleton, List.prod_append,
        List.prod_singleton, List.append_assoc, List.singleton_append] at hih
      rw [List.enumFrom_cons, List.map_cons, List.sum_cons]
      dsimp only [List.map_cons]
      rw [prodOthersAt_append_len pre d (t.map Prod.snd), hih]
      simp only [wsumAux]

theorem interpolate_enum_sum (pts : List (ℚ × ℚ)) (S : ℚ) :
    ((pts.enum).map (fun ip => ip.2.1 * prodOthersAt (pts.map Prod.snd) ip.1 / S)).sum
      = wsumAux S 1 pts := by
  have h := wsum_enumFrom S pts []
  simpa using h

theorem sublistsLen_pred_sum :
    ∀ (q : List ℚ), q ≠ [] →
      ((q.sublistsLen (q.length - 1)).map List.prod).sum = sumProdOthers q := by
  intro q
  induction q with
  | nil => intro h; exact absurd rfl h
  | cons a t ih =>
      intro _
      cases t with
      | nil => simp [sumProdOthers]
      | cons b t' =>
          show ((List.sublistsLen (t'.length + 1) (a :: b :: t')).map List.prod).sum = _
          have hfull : List.sublistsLen (t'.length + 1) (b :: t') = [b :: t'] := by
            simpa using List.sublistsLen_length (b :: t')
          rw [List.sublistsLen_succ_cons, hfull, List.map_append,
            List.sum_append, List.map_map]
          have hcomp : List.map (List.prod ∘ List.cons a) (List.sublistsLen t'.length (b :: t'))
              = List.map (fun s => a * s.prod) (List.sublistsLen t'.length (b :: t')) :=
            List.map_congr_left (fun s _ => by simp)
          rw [hcomp, List.sum_map_mul_left]
          have hihv := ih (by simp)
          rw [show (b :: t').length - 1 = t'.length from rfl] at hihv
          rw [hihv]
          simp [sumProdOthers]

theorem interpolate_eq_spec (entries : List Entry) (lux : String) (luma : Nat) :
    interpolate entries lux luma
      = if samePoints entries lux luma = [] then none
        else some (Int.toNat ⌊shepardSpec (samePoints entries lux luma)⌋) := by
  by_cases h : samePoints entries lux luma = []
  · simp [interpolate, h]
  · have hne : (samePoints entries lux luma).isEmpty = false := by
      cases hp : samePoints entries lux luma with
      | nil => exact absurd hp h
      | cons x xs => rfl
    have hqne : (samePoints entries lux luma).map Prod.snd ≠ [] := by
      intro hc
      exact h (List.map_eq_nil_iff.mp hc)
    simp only [interpolate, hne, Bool.false_eq_true, if_false, if_neg h]
    congr 2
    rw [show (samePoints entries lux luma).length
        = ((samePoints entries lux luma).map Prod.snd).length from (List.length_map _ _).symm]
    rw [sublistsLen_pred_sum _ hqne, interpolate_enum_sum]
    rfl

theorem wsumAux_acc_zero (S : ℚ) : ∀ l : List (ℚ × ℚ), wsumAux S 0 l = 0 := by
  intro l
  induction l with
  | nil => rfl
  | cons p t ih =>
      obtain ⟨b, d⟩ := p
      simp only [wsumAux, zero_mul, mul_zero, zero_div, zero_add, ih]

theorem wsumAux_zero_mid (S b : ℚ) (l2 : List (ℚ × ℚ)) :
    ∀ (l1 : List (ℚ × ℚ)) (acc : ℚ),
      wsumAux S acc (l1 ++ (b, 0) :: l2)
        = b * ((acc * (l1.map Prod.snd).prod) * (l2.map Prod.snd).prod) / S := by
  intro l1
  induction l1 with
  | nil =>
      intro acc
      simp only [List.nil_append, wsumAux, mul_zero, wsumAux_acc_zero, add_zero,
        List.map_nil, List.prod_nil]
      ring_nf
  | cons p l1' ih =>
      intro acc
      obtain ⟨b', d'⟩ := p
      rw [List.cons_append]
      rw [show wsumAux S acc ((b', d') :: (l1' ++ (b, 0) :: l2))
          = b' * (acc * ((l1' ++ (b, 0) :: l2).map Prod.snd).prod) / S
            + wsumAux S (acc * d') (l1' ++ (b, 0) :: l2) from rfl]
      rw [ih (acc * d')]
      have hmid : ((l1' ++ (b, 0) :: l2).map Prod.snd).prod = 0 := by
        simp only [List.map_append, List.map_cons, List.prod_append, List.prod_cons,
          zero_mul, mul_zero]
      rw [hmid]
      simp only [List.map_cons, List.prod_cons]
      ring

theorem sumProdOthers_zero_mid (q2 : List ℚ) :
    ∀ q1 : List ℚ, sumProdOthers (q1 ++ 0 :: q2) = q1.prod * q2.prod := by
  intro q1
  induction q1 with
  | nil =>
      simp [sumProdOthers]
  | cons a q1' ih =>
      rw [List.cons_append]
      rw [show sumProdOthers (a :: (q1' ++ 0 :: q2))
          = (q1' ++ 0 :: q2).prod + a * sumProdOthers (q1' ++ 0 :: q2) from rfl]
      rw [ih]
      have hmid : (q1' ++ 0 :: q2).prod = 0 := by
        simp only [List.prod_append, List.prod_cons, zero_mul, mul_zero]
      rw [hmid]
      simp only [List.prod_cons]
      ring

theorem toNat_floor_natCast (n : Nat) : Int.toNat ⌊((n : ℚ))⌋ = n := by
  rw [Int.floor_natCast, Int.toNat_natCast]

theorem stored_point_exact (entries : List Entry) (lux : String) (e : Entry)
    (hpw : List.Pairwise (fun a b => a.lux ≠ b.lux ∨ a.luma ≠ b.luma) entries)
    (hmem : e ∈ entries) (hlux : e.lux = lux) :
    interpolate entries lux e.luma = some e.brightness := by
  rw [interpolate_eq_spec]
  have hef : e ∈ entries.filter (fun x => x.lux == lux) :=
    List.mem_filter.mpr ⟨hmem, by simp [hlux]⟩
  obtain ⟨f1, f2, hsplit⟩ := List.append_of_mem hef
  have hpts : samePoints entries lux e.luma
      = f1.map (fun x => ((x.brightness : ℚ), |(e.luma : ℚ) - (x.luma : ℚ)|))
        ++ ((e.brightness : ℚ), 0)
          :: f2.map (fun x => ((x.brightness : ℚ), |(e.luma : ℚ) - (x.luma : ℚ)|)) := by
    unfold samePoints
    rw [hsplit, List.map_append, List.map_cons]
    simp
  have hpwf : List.Pairwise (fun a b : Entry => a.lux ≠ b.lux ∨ a.luma ≠ b.luma)
      (f1 ++ e :: f2) :=
    List.Pairwise.sublist (hsplit ▸ List.filter_sublist entries) hpw
  rw [List.pairwise_append] at hpwf
  obtain ⟨-, hpw2, hcross⟩ := hpwf
  rw [List.pairwise_cons] at hpw2
  obtain ⟨hhead, -⟩ := hpw2
  have hfl : ∀ x ∈ f1 ++ e :: f2, x.lux = lux := by
    intro x hx
    have hxf : x ∈ entries.filter (fun y => y.lux == lux) := hsplit ▸ hx
    have := (List.mem_filter.mp hxf).2
    simpa using this
  have hd1 : ∀ x ∈ f1, |(e.luma : ℚ) - (x.luma : ℚ)| ≠ 0 := by
    intro x hx
    rcases hcross x hx e (by simp) with h | h
    · exact absurd ((hfl x (List.mem_append_left _ hx)).trans
        (hfl e (List.mem_append_right _ (by simp))).symm) h
    · simp only [ne_eq, abs_eq_zero, sub_eq_zero]
      intro hc
      exact h (by exact_mod_cast hc.symm)
  have hd2 : ∀ x ∈ f2, |(e.luma : ℚ) - (x.luma : ℚ)| ≠ 0 := by
    intro x hx
    rcases hhead x hx with h | h
    · exact absurd ((hfl e (List.mem_append_right _ (by simp))).trans
        (hfl x (List.mem_append_right _ (by simp [hx]))).symm) h
    · simp only [ne_eq, abs_eq_zero, sub_eq_zero]
      intro hc
      exact h (by exact_mod_cast hc)
  have hm1 : (f1.map (fun x => ((x.brightness : ℚ), |(e.luma : ℚ) - (x.luma : ℚ)|))).map
      Prod.snd = f1.map (fun x => |(e.luma : ℚ) - (x.luma : ℚ)|) := by
    rw [List.map_map]
    rfl
  have hm2 : (f2.map (fun x => ((x.brightness : ℚ), |(e.luma : ℚ) - (x.luma : ℚ)|))).map
      Prod.snd = f2.map (fun x => |(e.luma : ℚ) - (x.luma : ℚ)|) := by
    rw [List.map_map]
    rfl
  have hz1 : ((f1.map (fun x => ((x.brightness : ℚ), |(e.luma : ℚ) - (x.luma : ℚ)|))).map
      Prod.snd).prod ≠ 0 := by
    rw [hm1]
    apply List.prod_ne_zero
    intro h0
    obtain ⟨x, hx, hx0⟩ := List.mem_map.mp h0
    exact hd1 x hx hx0
  have hz2 : ((f2.map (fun x => ((x.brightness : ℚ), |(e.luma : ℚ) - (x.luma : ℚ)|))).map
      Prod.snd).prod ≠ 0 := by
    rw [hm2]
    apply List.prod_ne_zero
    intro h0
    obtain ⟨x, hx, hx0⟩ := List.mem_map.mp h0
    exact hd2 x hx hx0
  rw [hpts, if_neg (by simp)]
  congr 1
  rw [show shepardSpec
        (f1.map (fun x => ((x.brightness : ℚ), |(e.luma : ℚ) - (x.luma : ℚ)|))
          ++ ((e.brightness : ℚ), 0)
            :: f2.map (fun x => ((x.brightness : ℚ), |(e.luma : ℚ) - (x.luma : ℚ)|)))
      = wsumAux (sumProdOthers
          ((f1.map (fun x => ((x.brightness : ℚ), |(e.luma : ℚ) - (x.luma : ℚ)|))
            ++ ((e.brightness : ℚ), 0)
              :: f2.map (fun x => ((x.brightness : ℚ), |(e.luma : ℚ) - (x.luma : ℚ)|))).map
            Prod.snd)) 1
          (f1.map (fun x => ((x.brightness : ℚ), |(e.luma : ℚ) - (x.luma : ℚ)|))
            ++ ((e.brightness : ℚ), 0)
              :: f2.map (fun x => ((x.brightness : ℚ), |(e.luma : ℚ) - (x.luma : ℚ)|)))
      from rfl]
  rw [List.map_append, List.map_cons]
  rw [show (((e.brightness : ℚ), (0 : ℚ))).2 = (0 : ℚ) from rfl]
  rw [sumProdOthers_zero_mid, wsumAux_zero_mid]
  rw [one_mul, mul_div_assoc, div_self (mul_ne_zero hz1 hz2), mul_one]
  exact toNat_floor_natCast e.brightness

theorem single_point_exact (entries : List Entry) (lux : String) (luma : Nat) (e : Entry)
    (hf : entries.filter (fun x => x.lux == lux) = [e]) :
    interpolate entries lux luma = some e.brightness := by
  rw [interpolate_eq_spec]
  have hpts : samePoints entries lux luma
      = [((e.brightness : ℚ), |(luma : ℚ) - (e.luma : ℚ)|)] := by
    unfold samePoints
    rw [hf]
    rfl
  rw [hpts, if_neg (by simp)]
  congr 1
  have hs : shepardSpec [((e.brightness : ℚ), |(luma : ℚ) - (e.luma : ℚ)|)]
      = (e.brightness : ℚ) := by
    simp [shepardSpec, wsumAux, sumProdOthers]
  rw [hs]
  exact toNat_floor_natCast e.brightness

theorem interpolate_example_43 :
    interpolate [⟨"dim", 10, 15⟩, ⟨"dim", 20, 30⟩, ⟨"dim", 100, 100⟩] "dim" 50
      = some 43 := by
  rw [interpolate_eq_spec]
  have hpts : samePoints [⟨"dim", 10, 15⟩, ⟨"dim", 20, 30⟩, ⟨"dim", 100, 100⟩] "dim" 50
      = [((15 : ℚ), 40), (30, 30), (100, 50)] := by
    unfold samePoints
    norm_num [List.filter]
  rw [hpts, if_neg (by simp)]
  have hs : shepardSpec [((15 : ℚ), 40), (30, 30), (100, 50)] = 202500 / 4700 := by
    simp only [shepardSpec, wsumAux, sumProdOthers]
    norm_num
  rw [hs]
  rw [show (202500 : ℚ) / 4700 = ((202500 : Nat) : ℚ) / ((4700 : Nat) : ℚ) by norm_num]
  rw [Rat.floor_natCast_div_natCast]
  decide

/-! ## Claims on interpolation -/

/-- Claim C4: the prediction is computed only from the entries whose lux
equals the current lux (the samePoints list); when that restriction is
empty nothing is emitted, and otherwise the emitted value is the floor of
the Shepard weighted sum, with weights the products of the other
candidates distances over the sum of all such products; in particular on
the dataset [(10,15),(20,30),(100,100)] at lux dim and luma 50 the
prediction is 43. -/
theorem c4_interpolate_shepard :
    (∀ (entries : List Entry) (lux : String) (luma : Nat),
      interpolate entries lux luma
        = if samePoints entries lux luma = [] then none
          else some (Int.toNat ⌊shepardSpec (samePoints entries lux luma)⌋))
    ∧ interpolate [⟨"dim", 10, 15⟩, ⟨"dim", 20, 30⟩, ⟨"dim", 100, 100⟩] "dim" 50
        = some 43 :=
  ⟨interpolate_eq_spec, interpolate_example_43⟩

/-- Claim C6: on a dataset whose entries are unique per (lux, luma),
predicting at exactly a stored (lux, luma) returns that stored brightness
exactly (hence within the one unit the claim allows for flooring), and
with a single same-lux entry the prediction is that entry brightness
unchanged at every luma. -/
theorem c6_prediction_at_stored_point :
    (∀ (entries : List Entry) (lux : String) (e : Entry),
      List.Pairwise (fun a b => a.lux ≠ b.lux ∨ a.luma ≠ b.luma) entries →
      e ∈ entries → e.lux = lux →
      interpolate entries lux e.luma = some e.brightness)
    ∧ (∀ (entries : List Entry) (lux : String) (luma : Nat) (e : Entry),
        entries.filter (fun x => x.lux == lux) = [e] →
        interpolate entries lux luma = some e.brightness) :=
  ⟨stored_point_exact, single_point_exact⟩

theorem c6_witness :
    interpolate [⟨"dim", 10, 15⟩, ⟨"dim", 20, 30⟩] "dim" 20 = some 30 := by
  have h := c6_prediction_at_stored_point.1 [⟨"dim", 10, 15⟩, ⟨"dim", 20, 30⟩] "dim"
    ⟨"dim", 20, 30⟩ (by norm_num [List.pairwise_cons]) (by decide) (by decide)
  exact h

/-! ## Helper lemmas: perceived lightness -/

theorem chunkRGB_nil (channels : Nat) : chunkRGB [] channels = some [] := by
  simp [chunkRGB]

theorem chunkRGB_cons (r g b : Nat) (rest : List Nat) (channels : Nat) :
    chunkRGB (r :: g :: b :: rest) channels
      = (chunkRGB (rest.drop (channels - 3)) channels).map (fun cl => (r, g, b) :: cl) := by
  simp [chunkRGB]

theorem chunkRGB_complete :
    ∀ (pixels : Nat) (l : List Nat) (channels : Nat), 3 ≤ channels →
      l.length = channels * pixels → (∀ x ∈ l, x ≤ 255) →
      ∃ chunks, chunkRGB l channels = some chunks ∧ chunks.length = pixels
        ∧ ∀ t ∈ chunks, t.1 ≤ 255 ∧ t.2.1 ≤ 255 ∧ t.2.2 ≤ 255 := by
  intro pixels
  induction pixels with
  | zero =>
      intro l channels _ hlen _
      rw [Nat.mul_zero] at hlen
      rw [List.length_eq_zero.mp hlen]
      exact ⟨[], chunkRGB_nil channels, rfl, by simp⟩
  | succ n ih =>
      intro l channels hch hlen hb
      rw [Nat.mul_succ] at hlen
      match l, hlen with
      | r :: g :: b :: rest, hlen =>
          have hlen' : rest.length = channels * n + channels - 3 := by
            simp only [List.length_cons] at hlen
            omega
          have hdlen : (rest.drop (channels - 3)).length = channels * n := by
            rw [List.length_drop, hlen']
            omega
          obtain ⟨chunks', hc', hl', hb'⟩ := ih (rest.drop (channels - 3)) channels hch hdlen
            (fun x hx => hb x (by
              have : x ∈ rest := List.drop_subset _ _ hx
              simp [this]))
          refine ⟨(r, g, b) :: chunks', ?_, by simp [hl'], ?_⟩
          · rw [chunkRGB_cons, hc']
            rfl
          · intro t ht
            rcases List.mem_cons.mp ht with rfl | ht'
            · exact ⟨hb r (by simp), hb g (by simp), hb b (by simp)⟩
            · exact hb' t ht'
      | [r, g], hlen => simp only [List.length_cons, List.length_nil] at hlen; omega
      | [r], hlen => simp only [List.length_cons, List.length_nil] at hlen; omega
      | [], hlen => simp only [List.length_nil] at hlen; omega

theorem foldl_sum_bound (cs : List (Nat × Nat × Nat)) :
    ∀ (a : Nat × Nat × Nat),
      (∀ t ∈ cs, t.1 ≤ 255 ∧ t.2.1 ≤ 255 ∧ t.2.2 ≤ 255) →
      (cs.foldl (fun a x => (a.1 + x.1, a.2.1 + x.2.1, a.2.2 + x.2.2)) a).1
          ≤ a.1 + 255 * cs.length
      ∧ (cs.foldl (fun a x => (a.1 + x.1, a.2.1 + x.2.1, a.2.2 + x.2.2)) a).2.1
          ≤ a.2.1 + 255 * cs.length
      ∧ (cs.foldl (fun a x => (a.1 + x.1, a.2.1 + x.2.1, a.2.2 + x.2.2)) a).2.2
          ≤ a.2.2 + 255 * cs.length := by
  induction cs with
  | nil => intro a _; exact ⟨le_refl _, le_refl _, le_refl _⟩
  | cons c cs ih =>
      intro a hb
      have hc := hb c (by simp)
      have := ih (a.1 + c.1, a.2.1 + c.2.1, a.2.2 + c.2.2)
        (fun t ht => hb t (List.mem_cons_of_mem _ ht))
      simp only [List.foldl_cons, List.length_cons]
      obtain ⟨h1, h2, h3⟩ := this
      refine ⟨?_, ?_, ?_⟩ <;> simp only at h1 h2 h3 <;> omega

theorem channelSums_complete (rgbas : List Nat) (has_alpha : Bool) (pixels : Nat)
    (hb : ∀ x ∈ rgbas, x ≤ 255) (hp : 1 ≤ pixels)
    (hlen : (if has_alpha then 4 else 3) * pixels ≤ rgbas.length) :
    ∃ s, channelSums rgbas has_alpha pixels = some s
      ∧ s.1 ≤ 255 * pixels ∧ s.2.1 ≤ 255 * pixels ∧ s.2.2 ≤ 255 * pixels := by
  have hch : 3 ≤ (if has_alpha then 4 else 3) := by cases has_alpha <;> simp
  have htlen : (rgbas.take ((if has_alpha then 4 else 3) * pixels)).length
      = (if has_alpha then 4 else 3) * pixels := by
    rw [List.length_take]
    omega
  obtain ⟨chunks, hc, hl, hcb⟩ := chunkRGB_complete pixels
    (rgbas.take ((if has_alpha then 4 else 3) * pixels)) (if has_alpha then 4 else 3)
    hch htlen (fun x hx => hb x (List.take_subset _ _ hx))
  match chunks, hl with
  | [], hl => simp only [List.length_nil] at hl; omega
  | c :: cs, hl =>
      have hcc := hcb c (by simp)
      have hfold := foldl_sum_bound cs c (fun t ht => hcb t (List.mem_cons_of_mem _ ht))
      refine ⟨cs.foldl (fun a x => (a.1 + x.1, a.2.1 + x.2.1, a.2.2 + x.2.2)) c, ?_, ?_, ?_, ?_⟩
      · simp only [channelSums]
        rw [hc]
      · have : cs.length = pixels - 1 := by simp only [List.length_cons] at hl; omega
        obtain ⟨h1, -, -⟩ := hfold
        omega
      · have : cs.length = pixels - 1 := by simp only [List.length_cons] at hl; omega
        obtain ⟨-, h2, -⟩ := hfold
        omega
      · have : cs.length = pixels - 1 := by simp only [List.length_cons] at hl; omega
        obtain ⟨-, -, h3⟩ := hfold
        omega

/-! ## Claim on perceived lightness -/

/-- Claim C10: for at least one pixel and a byte buffer holding at least
channels times pixels bytes (four channels with alpha, three without), the
perceived lightness computation succeeds and its result is a percentage at
most 100, because the squared-channel weights sum to one and each channel
mean is at most 255; with zero pixels the computation fails (the source
unwraps the reduce over zero chunks and panics). -/
theorem c10_perceived_lightness_percent :
    ∀ (rgbas : List Nat) (has_alpha : Bool) (pixels : Nat),
      (∀ x ∈ rgbas, x ≤ 255) →
      ((1 ≤ pixels → (if has_alpha then 4 else 3) * pixels ≤ rgbas.length →
        ∃ p, perceivedLightnessPercent rgbas has_alpha pixels = some p ∧ p ≤ 100)
      ∧ (pixels = 0 → perceivedLightnessPercent rgbas has_alpha pixels = none)) := by
  intro rgbas has_alpha pixels hb
  constructor
  · intro hp hlen
    obtain ⟨s, hs, hs1, hs2, hs3⟩ := channelSums_complete rgbas has_alpha pixels hb hp hlen
    have hps : perceivedLightnessPercent rgbas has_alpha pixels
        = some (min 255 (Int.toNat
            ⌊Real.sqrt (0.241 * ((s.1 : ℝ) / (pixels : ℝ)) * ((s.1 : ℝ) / (pixels : ℝ))
                + 0.691 * ((s.2.1 : ℝ) / (pixels : ℝ)) * ((s.2.1 : ℝ) / (pixels : ℝ))
                + 0.068 * ((s.2.2 : ℝ) / (pixels : ℝ)) * ((s.2.2 : ℝ) / (pixels : ℝ)))
              / 255 * 100 + 1 / 2⌋)) := by
      unfold perceivedLightnessPercent
      rw [hs, Option.map_some']
    refine ⟨_, hps, ?_⟩
    have hpx : (0 : ℝ) < (pixels : ℝ) := by
      have : (0 : ℕ) < pixels := hp
      exact_mod_cast this
    have hr0 : (0 : ℝ) ≤ (s.1 : ℝ) / (pixels : ℝ) := by positivity
    have hg0 : (0 : ℝ) ≤ (s.2.1 : ℝ) / (pixels : ℝ) := by positivity
    have hb0 : (0 : ℝ) ≤ (s.2.2 : ℝ) / (pixels : ℝ) := by positivity
    have hr255 : (s.1 : ℝ) / (pixels : ℝ) ≤ 255 := by
      rw [div_le_iff₀ hpx]
      calc (s.1 : ℝ) ≤ ((255 * pixels : ℕ) : ℝ) := by exact_mod_cast hs1
        _ = 255 * (pixels : ℝ) := by push_cast; ring
    have hg255 : (s.2.1 : ℝ) / (pixels : ℝ) ≤ 255 := by
      rw [div_le_iff₀ hpx]
      calc (s.2.1 : ℝ) ≤ ((255 * pixels : ℕ) : ℝ) := by exact_mod_cast hs2
        _ = 255 * (pixels : ℝ) := by push_cast; ring
    have hb255 : (s.2.2 : ℝ) / (pixels : ℝ) ≤ 255 := by
      rw [div_le_iff₀ hpx]
      calc (s.2.2 : ℝ) ≤ ((255 * pixels : ℕ) : ℝ) := by exact_mod_cast hs3
        _ = 255 * (pixels : ℝ) := by push_cast; ring
    set r := (s.1 : ℝ) / (pixels : ℝ) with hrdef
    set g := (s.2.1 : ℝ) / (pixels : ℝ) with hgdef
    set b := (s.2.2 : ℝ) / (pixels : ℝ) with hbdef
    have hr2 : r * r ≤ 255 * 255 := mul_le_mul hr255 hr255 hr0 (by norm_num)
    have hg2 : g * g ≤ 255 * 255 := mul_le_mul hg255 hg255 hg0 (by norm_num)
    have hb2 : b * b ≤ 255 * 255 := mul_le_mul hb255 hb255 hb0 (by norm_num)
    have hw : 0.241 * r * r + 0.691 * g * g + 0.068 * b * b ≤ 255 ^ 2 := by nlinarith
    have hsq : Real.sqrt (0.241 * r * r + 0.691 * g * g + 0.068 * b * b) ≤ 255 := by
      calc Real.sqrt (0.241 * r * r + 0.691 * g * g + 0.068 * b * b)
          ≤ Real.sqrt ((255 : ℝ) ^ 2) := Real.sqrt_le_sqrt hw
        _ = 255 := Real.sqrt_sq (by norm_num)
    have hres : Real.sqrt (0.241 * r * r + 0.691 * g * g + 0.068 * b * b) / 255 * 100
        ≤ 100 := by
      have h1 : Real.sqrt (0.241 * r * r + 0.691 * g * g + 0.068 * b * b) / 255 ≤ 1 := by
        rw [div_le_one (by norm_num)]
        exact hsq
      nlinarith
    have hfl : ⌊Real.sqrt (0.241 * r * r + 0.691 * g * g + 0.068 * b * b) / 255 * 100
        + 1 / 2⌋ ≤ 100 := by
      by_contra hcon
      push_neg at hcon
      have h101 : (101 : ℤ) ≤ ⌊Real.sqrt (0.241 * r * r + 0.691 * g * g + 0.068 * b * b)
          / 255 * 100 + 1 / 2⌋ := by omega
      have := Int.le_floor.mp h101
      push_cast at this
      linarith
    have htn : Int.toNat ⌊Real.sqrt (0.241 * r * r + 0.691 * g * g + 0.068 * b * b)
        / 255 * 100 + 1 / 2⌋ ≤ 100 := Int.toNat_le.mpr (by omega)
    calc min 255 (Int.toNat ⌊Real.sqrt (0.241 * r * r + 0.691 * g * g + 0.068 * b * b)
          / 255 * 100 + 1 / 2⌋)
        ≤ Int.toNat ⌊Real.sqrt (0.241 * r * r + 0.691 * g * g + 0.068 * b * b)
          / 255 * 100 + 1 / 2⌋ := min_le_right _ _
      _ ≤ 100 := htn
  · intro hp0
    subst hp0
    unfold perceivedLightnessPercent channelSums
    simp [chunkRGB]

theorem c10_witness :
    ∃ p, perceivedLightnessPercent [10, 20, 30, 40] true 1 = some p ∧ p ≤ 100 :=
  (c10_perceived_lightness_percent [10, 20, 30, 40] true 1 (by decide)).1
    (by decide) (by decide)
